import Mathlib

set_option maxHeartbeats 1000000
set_option maxRecDepth 8000

/-!
Verification of the tickbox workflow runner (src/src/main.rs) against its
natural-language specification.  The Rust source is shallowly embedded:

* struct Task / enum State / enum UIUpdate become Lean structures and
  inductives; Instant and Duration are modelled as natural numbers.
* compiled regexes are modelled as boolean predicates on strings;
* fn sync_point and fn parse_range are translated directly;
* fn run_command is modelled as a function of the sequence of readiness
  events its tokio select loop observes (a "script"), together with a send
  budget modelling how many channel sends succeed before the UI consumer
  disconnects (budget none = consumer stays connected);
* the runner task spawned in main (lines 645-715) is modelled as a
  recursion over the task list carrying the running/handles vectors, with an
  oracle giving each task's subprocess behaviour and a picker resolving
  which handle futures::future::select_all sees finish first.  The model
  records a trace of scheduler actions (sync-point checks, dispatches,
  handle joins) and the runner's result: completed b, panicked (some
  expect/unwrap/panic! fired) or hung (awaiting something that never
  finishes).
-/

namespace Tickbox

/-- The state of a task (enum State, src/src/main.rs lines 134-141).
Instants and Durations are modelled as natural numbers. -/
inductive State where
  | complete (d : Nat)
  | failed (d : Nat)
  | running (start : Nat)
  | pending
  | skipped
deriving DecidableEq

/-- A task: one step in a workflow (struct Task, src/src/main.rs lines
124-131).  The PathBuf cmd is modelled as a string. -/
structure Task where
  n : Nat
  id : Nat
  name : String
  cmd : String
  state : State
deriving DecidableEq

/-- The closure r.0 <= id && id <= r.1 used twice inside fn sync_point. -/
def containsId (r : Nat × Nat) (i : Nat) : Bool :=
  decide (r.1 ≤ i) && decide (i ≤ r.2)

/-- Return true if this is a sync point, that stops parallel steps
(fn sync_point, src/src/main.rs lines 156-174).  Compiled regexes are
modelled as boolean predicates on task names. -/
def sync_point (task : Task) (running : List Task) (opt_par : List (Nat × Nat))
    (conf_par_re : List (String → Bool)) : Bool :=
  if !opt_par.isEmpty then
    match opt_par.find? (fun r => containsId r task.id) with
    | some r => !running.all (fun t => containsId r t.id)
    | none => true
  else
    match conf_par_re.find? (fun re => re task.name) with
    | some re => !running.all (fun t => re t.name)
    | none => true

/-- The behaviour of sync_point as described by claim C1, written from the
claim's words: with a non-empty range list, true if no range contains the
task id, otherwise true unless every running task is inside the first range
containing the task id (regexes ignored); with an empty range list and some
matching regex, true unless the first matching regex matches every running
task; true when nothing applies. -/
def syncPointSpec (task : Task) (running : List Task) (ranges : List (Nat × Nat))
    (regexes : List (String → Bool)) : Bool :=
  if ranges.isEmpty then
    match (regexes.filter (fun re => re task.name)).head? with
    | some re => !running.all (fun t => re t.name)
    | none => true
  else if ranges.all (fun r => !containsId r task.id) then
    true
  else
    match (ranges.filter (fun r => containsId r task.id)).head? with
    | some r => !running.all (fun t => containsId r t.id)
    | none => true

/-- Rust usize::from_str: an optional leading plus sign, then one or more
ascii digits, rejecting values above usize::MAX (64-bit). -/
def parseUsize (s : String) : Option Nat :=
  let digits := if s.startsWith "+" then s.drop 1 else s
  if digits.isEmpty then none
  else if digits.all Char.isDigit then
    let v := digits.foldl (fun acc c => acc * 10 + (c.toNat - '0'.toNat)) 0
    if v < 2 ^ 64 then some v else none
  else none

/-- fn parse_range (src/src/main.rs lines 56-72): split on the dash, demand
exactly two parts, parse both as usize (start first, so its error wins),
and demand start <= end. -/
def parse_range (s : String) : Except String (Nat × Nat) :=
  let parts := s.splitOn "-"
  if parts.length = 2 then
    match parseUsize (parts.getD 0 "") with
    | none => .error ("Invalid number: " ++ parts.getD 0 "")
    | some start =>
      match parseUsize (parts.getD 1 "") with
      | none => .error ("Invalid number: " ++ parts.getD 1 "")
      | some stop =>
        if start > stop then .error ("End must be less than start: " ++ s)
        else .ok (start, stop)
  else .error ("Invalid range format: " ++ s)

/-- A UIUpdate sent to the UI thread (enum UIUpdate, src/src/main.rs lines
234-243).  Status carries a snapshot of the task, with its updated state. -/
inductive Event where
  | wait
  | status (t : Task)
  | addLine (line : String)
deriving DecidableEq

/-- How the subprocess terminated: ExitStatus::code() is some code, or the
process was killed by a signal. -/
inductive ExitSt where
  | code (c : Int)
  | signal (s : Int)
deriving DecidableEq

/-- ExitStatus::success(): exited with code 0. -/
def isSuccess : ExitSt → Bool
  | .code c => c == 0
  | .signal _ => false

/-- One readiness event of the tokio select loop in fn run_command
(src/src/main.rs lines 382-433): a completed line on stderr or stdout, end
of one of the two streams, an I/O error from next_line on one of them, or
the subprocess exiting. -/
inductive MuxEvent where
  | errLine (line : String)
  | outLine (line : String)
  | errEof
  | outEof
  | errErr (msg : String)
  | outErr (msg : String)
  | exitE (st : ExitSt)
deriving DecidableEq

/-- How one invocation of fn run_command ends: Ok(b) returned, Err(msg)
returned (the question-mark operator on a pipe read), a panic (an unwrap
or expect fired), or blocked forever. -/
inductive SupOutcome where
  | retOk (b : Bool)
  | retErr (msg : String)
  | panicked
  | hung
deriving DecidableEq

/-- Result of a modelled fn run_command invocation: the events successfully
sent on the channel, whether cmd.kill() ran, how the call ended, and the
readiness events the select loop never got to handle. -/
structure CmdRun where
  sent : List Event
  killed : Bool
  outcome : SupOutcome
  leftover : List MuxEvent
deriving DecidableEq

/-- One tx.send(..) attempt against the remaining send budget: none means
the consumer never disconnects, some k means k more sends succeed.  Returns
none when the send fails, some of the new budget when it succeeds. -/
def budDec : Option Nat → Option (Option Nat)
  | none => some none
  | some 0 => none
  | some (k + 1) => some (some k)

/-- The banner line sent before spawning (src/src/main.rs lines 357-362). -/
def banner (name : String) : String :=
  "============ Running \"" ++ name ++ "\" ================"

/-- The summary line sent when the subprocess exits (src/src/main.rs lines
415-429); note the trailing space in the signal case, as in the source. -/
def summaryLine (name : String) : ExitSt → String
  | .code c => "==> Command \"" ++ name ++ "\" exited with code " ++ toString c
  | .signal s => "==> Command \"" ++ name ++ "\" exited with signal " ++ toString s ++ " "

/-- The select loop of fn run_command (src/src/main.rs lines 382-433).
A line on an open stream is sent with an is_err() check: on failure the
subprocess is killed and the loop breaks, so run_command returns Ok(false)
without touching the rest of the script.  An end-of-stream disables that
select arm.  An I/O error on next_line propagates as Err.  On process exit
a blank line and a summary line are sent with unwrap (panicking on a dead
consumer) and Ok(status.success()) is returned.  A script that ends without
an exit event leaves the loop blocked forever (hung). -/
def muxLoop (name : String) : List MuxEvent → Bool → Bool → Option Nat → List Event → CmdRun
  | [], _, _, _, acc => ⟨acc, false, .hung, []⟩
  | .errLine ln :: rest, errOpen, outOpen, bud, acc =>
    if errOpen then
      match budDec bud with
      | none => ⟨acc, true, .retOk false, rest⟩
      | some bud1 => muxLoop name rest errOpen outOpen bud1 (acc ++ [.addLine ln])
    else muxLoop name rest errOpen outOpen bud acc
  | .outLine ln :: rest, errOpen, outOpen, bud, acc =>
    if outOpen then
      match budDec bud with
      | none => ⟨acc, true, .retOk false, rest⟩
      | some bud1 => muxLoop name rest errOpen outOpen bud1 (acc ++ [.addLine ln])
    else muxLoop name rest errOpen outOpen bud acc
  | .errEof :: rest, errOpen, outOpen, bud, acc =>
    if errOpen then muxLoop name rest false outOpen bud acc
    else muxLoop name rest errOpen outOpen bud acc
  | .outEof :: rest, errOpen, outOpen, bud, acc =>
    if outOpen then muxLoop name rest errOpen false bud acc
    else muxLoop name rest errOpen outOpen bud acc
  | .errErr msg :: rest, errOpen, outOpen, bud, acc =>
    if errOpen then ⟨acc, false, .retErr msg, rest⟩
    else muxLoop name rest errOpen outOpen bud acc
  | .outErr msg :: rest, errOpen, outOpen, bud, acc =>
    if outOpen then ⟨acc, false, .retErr msg, rest⟩
    else muxLoop name rest errOpen outOpen bud acc
  | .exitE st :: rest, _, _, bud, acc =>
    match budDec bud with
    | none => ⟨acc, false, .panicked, rest⟩
    | some bud1 =>
      match budDec bud1 with
      | none => ⟨acc ++ [.addLine ""], false, .panicked, rest⟩
      | some _ =>
        ⟨acc ++ [.addLine "", .addLine (summaryLine name st)], false,
          .retOk (isSuccess st), rest⟩

/-- fn run_command (src/src/main.rs lines 348-435): send the banner with
unwrap (panicking if the consumer is gone), spawn with expect (panicking on
a spawn failure), then run the select loop.  The script parameter is the
sequence of readiness events the loop observes; bud is the send budget. -/
def runCommand (name : String) (spawnOk : Bool) (script : List MuxEvent)
    (bud : Option Nat) : CmdRun :=
  match budDec bud with
  | none => ⟨[], false, .panicked, script⟩
  | some bud1 =>
    if spawnOk then muxLoop name script true true bud1 [.addLine (banner name)]
    else ⟨[.addLine (banner name)], false, .panicked, script⟩

/-- The value a spawned runner-side task handle resolves to: the bool
returned by the async block, a panic (JoinError), or never resolving. -/
inductive HandleRes where
  | ret (b : Bool)
  | panicked
  | hung
deriving DecidableEq

/-- What one task's spawned async block does (src/src/main.rs lines
677-707): the events it sends, the successive values taken by its local
steps[n].state, the last of those values, and what its handle resolves to. -/
structure BodyResult where
  events : List Event
  states : List State
  final : State
  ret : HandleRes
deriving DecidableEq

/-- Oracle describing one task's subprocess: whether the spawn succeeds,
the readiness events its select loop observes, and the Instant::now() and
elapsed values observed by the async block. -/
structure TaskOracle where
  spawnOk : Bool
  script : List MuxEvent
  start : Nat
  elapsed : Nat
deriving DecidableEq

/-- The async block spawned per task by the runner (src/src/main.rs lines
677-707), with the consumer connected (unlimited send budget).  If the
name filter does not match, the task is marked Skipped, its status is sent
and true is returned.  Otherwise the state goes to Running, run_command
runs, and its result decides the final state: Ok(true) gives Complete,
Ok(false) sends Wait then Status(Failed) and returns false, Err sends a
diagnostic AddLine and the still-Running status and returns true; a panic
inside run_command propagates. -/
def taskBody (t : Task) (matched : Bool) (o : TaskOracle) : BodyResult :=
  if matched then
    let cr := runCommand t.name o.spawnOk o.script none
    let pre := Event.status { t with state := .running o.start } :: cr.sent
    match cr.outcome with
    | .retOk true =>
      ⟨pre ++ [.status { t with state := .complete o.elapsed }],
        [.pending, .running o.start, .complete o.elapsed], .complete o.elapsed, .ret true⟩
    | .retOk false =>
      ⟨pre ++ [.wait, .status { t with state := .failed o.elapsed }],
        [.pending, .running o.start, .failed o.elapsed], .failed o.elapsed, .ret false⟩
    | .retErr msg =>
      ⟨pre ++ [.addLine ("Got an error: " ++ msg ++ "\n"),
          .status { t with state := .running o.start }],
        [.pending, .running o.start], .running o.start, .ret true⟩
    | .panicked => ⟨pre, [.pending, .running o.start], .running o.start, .panicked⟩
    | .hung => ⟨pre, [.pending, .running o.start], .running o.start, .hung⟩
  else ⟨[.status { t with state := .skipped }], [.pending, .skipped], .skipped, .ret true⟩

/-- One aligned entry of the runner's running and handles vectors
(src/src/main.rs lines 647-648): the enumerate index of the task, the task
pushed into running, and what its spawned handle does.  The two vectors are
always pushed, removed and cleared together, so they are modelled as one
list. -/
structure Slot where
  n : Nat
  task : Task
  res : BodyResult
deriving DecidableEq

/-- An action of the runner loop, recorded in a trace: a sync_point
evaluation for a task (with the enumerate indices of the running set and
the result), the dispatch of a task (running.push + handles.push +
task::spawn), or an await of one handle together with what it resolved to. -/
inductive SchedAction where
  | syncCheck (n : Nat) (runningNs : List Nat) (result : Bool)
  | dispatch (s : Slot)
  | join (n : Nat) (r : HandleRes)
deriving DecidableEq

/-- How the runner task ends: the bool it returns, a panic (select_all on
an empty vector, a JoinError unwrap, or the panic! arm), or blocking
forever on a handle that never resolves. -/
inductive RunnerRes where
  | completed (b : Bool)
  | panicked
  | hung
deriving DecidableEq

abbrev Slots := List Slot

/-- Whether a handle never resolves. -/
def isHung : HandleRes → Bool
  | .hung => true
  | _ => false

/-- Pick the j-th (0-based) slot whose handle does resolve, returning it
and the list with it removed — the model of which already-finished future
futures::future::select_all reports first.  A hung handle is never picked
because select_all only resolves with a future that actually finishes. -/
def pickNonHung : Slots → Nat → Option (Slot × Slots)
  | [], _ => none
  | s :: rest, j =>
    if isHung s.res.ret then
      match pickNonHung rest j with
      | some (sel, rem) => some (sel, s :: rem)
      | none => none
    else if j = 0 then some (s, rest)
    else
      match pickNonHung rest (j - 1) with
      | some (sel, rem) => some (sel, s :: rem)
      | none => none

/-- The concurrency-cap block of the runner (src/src/main.rs lines
650-659): select_all over the handles (panicking on an empty vector),
then Ok(true) removes the finished pair from handles and running, Ok(false)
returns false from the runner, and Err(e) hits the panic! arm.  If no
handle can ever finish, the await blocks forever. -/
def capSelect (slots : Slots) (pick : Nat) :
    (List SchedAction × RunnerRes) ⊕ (List SchedAction × Slots) :=
  if slots.isEmpty then .inl ([], .panicked)
  else
    let c := slots.countP (fun s => !isHung s.res.ret)
    match pickNonHung slots (pick % c) with
    | none => .inl ([], .hung)
    | some (sel, rem) =>
      match sel.res.ret with
      | .ret true => .inr ([.join sel.n (.ret true)], rem)
      | .ret false => .inl ([.join sel.n (.ret false)], .completed false)
      | .panicked => .inl ([.join sel.n .panicked], .panicked)
      | .hung => .inl ([], .hung)

/-- The sync-point drain (src/src/main.rs lines 667-672): await every
handle in order with unwrap; a panicked handle panics the runner, a false
return makes the runner return false immediately (abandoning the rest),
and a hung handle blocks forever.  Returns the joins recorded and either
some early result or none when every handle returned true. -/
def drainAll : Slots → List SchedAction × Option RunnerRes
  | [] => ([], none)
  | s :: rest =>
    match s.res.ret with
    | .hung => ([], some .hung)
    | .panicked => ([.join s.n .panicked], some .panicked)
    | .ret false => ([.join s.n (.ret false)], some (.completed false))
    | .ret true => (.join s.n (.ret true) :: (drainAll rest).1, (drainAll rest).2)

/-- The final drain after the dispatch loop (src/src/main.rs lines
709-713): await every remaining handle with unwrap, folding failures into
the success flag, then return it. -/
def finalDrain (acc : Bool) : Slots → List SchedAction × RunnerRes
  | [] => ([], .completed acc)
  | s :: rest =>
    match s.res.ret with
    | .hung => ([], .hung)
    | .panicked => ([.join s.n .panicked], .panicked)
    | .ret b => (.join s.n (.ret b) :: (finalDrain (acc && b) rest).1,
        (finalDrain (acc && b) rest).2)

section Scheduler

variable (maxConc : Nat) (ranges : List (Nat × Nat)) (regexes : List (String → Bool))
variable (matching : String → Bool) (oracle : Nat → TaskOracle) (picker : Nat → Nat)

/-- The slot created when the runner dispatches task number n: the task is
pushed into running and its async block is spawned; the block applies the
opt.matching filter to steps[n].name and runs the task's subprocess as
described by the oracle. -/
def mkSlot (n : Nat) (t : Task) : Slot :=
  ⟨n, t, taskBody t (matching t.name) (oracle n)⟩

/-- The concurrency-cap phase of one loop iteration (src/src/main.rs lines
650-659): nothing happens while handles.len() is below the cap; otherwise
select_all resolves one handle, advancing the select counter. -/
def capPhase (slots : Slots) (k : Nat) :
    (List SchedAction × RunnerRes) ⊕ (List SchedAction × Slots × Nat) :=
  if maxConc ≤ slots.length then
    match capSelect slots (picker k) with
    | .inl r => .inl r
    | .inr (tr, slots1) => .inr (tr, slots1, k + 1)
  else .inr ([], slots, k)

/-- One iteration of the runner's dispatch loop for task (n, t)
(src/src/main.rs lines 649-708): the concurrency-cap block, then the
sync_point check against the current running set, a full drain if it is a
sync point, then the dispatch.  inl is an early exit of the whole runner,
inr carries the recorded actions, the new slots and the next select
counter. -/
def schedStep (n : Nat) (t : Task) (slots : Slots) (k : Nat) :
    (List SchedAction × RunnerRes) ⊕ (List SchedAction × Slots × Nat) :=
  match capPhase maxConc picker slots k with
  | .inl r => .inl r
  | .inr (tr1, slots1, k1) =>
    let sp := sync_point t (slots1.map (·.task)) ranges regexes
    let sc := SchedAction.syncCheck n (slots1.map (·.n)) sp
    if sp then
      match drainAll slots1 with
      | (trD, some r) => .inl (tr1 ++ sc :: trD, r)
      | (trD, none) =>
        .inr (tr1 ++ sc :: trD ++ [.dispatch (mkSlot matching oracle n t)],
          [mkSlot matching oracle n t], k1)
    else
      .inr (tr1 ++ [sc, .dispatch (mkSlot matching oracle n t)],
        slots1 ++ [mkSlot matching oracle n t], k1)

/-- The runner's dispatch loop over the remaining enumerated tasks,
followed by the final drain (src/src/main.rs lines 645-715). -/
def schedLoop : List (Nat × Task) → Slots → Nat → List SchedAction × RunnerRes
  | [], slots, _ => finalDrain true slots
  | (n, t) :: rest, slots, k =>
    match schedStep maxConc ranges regexes matching oracle picker n t slots k with
    | .inl r => r
    | .inr (tr, slots1, k1) =>
      ((tr ++ (schedLoop rest slots1 k1).1), (schedLoop rest slots1 k1).2)

/-- The whole runner task (src/src/main.rs lines 645-715) on an enumerated
task list, starting with empty running and handles vectors. -/
def runScheduler (tasks : List Task) : List SchedAction × RunnerRes :=
  schedLoop maxConc ranges regexes matching oracle picker tasks.enum [] 0

end Scheduler

/-- The exit code of the whole process as a function of the runner's
result (src/src/main.rs lines 722-725): Ok(true) falls through to exit
code 0; Ok(false) calls std::process::exit(1); a panicked runner makes
runner.await? return Err, so main returns Err and the process exits 1; a
hung runner never exits. -/
def mainExitCode : RunnerRes → Option Nat
  | .completed true => some 0
  | .completed false => some 1
  | .panicked => some 1
  | .hung => none

/-- The enumerate indices of the tasks the runner dispatched, in dispatch
order. -/
def dispatchedNs (tr : List SchedAction) : List Nat :=
  tr.filterMap (fun a => match a with | .dispatch s => some s.n | _ => none)

/-- The enumerate indices of the handles the runner awaited, in await
order. -/
def joinedNs (tr : List SchedAction) : List Nat :=
  tr.filterMap (fun a => match a with | .join n _ => some n | _ => none)

/-- Fold step for the set of in-flight tasks: dispatch adds the task's
index, a join removes it. -/
def stepInflight (l : List Nat) : SchedAction → List Nat
  | .dispatch s => l ++ [s.n]
  | .join n _ => l.erase n
  | .syncCheck _ _ _ => l

/-- The in-flight list stays within size c at every point of the action
list, starting from l. -/
def boundedInflight (c : Nat) : List Nat → List SchedAction → Prop
  | l, [] => l.length ≤ c
  | l, a :: tr => l.length ≤ c ∧ boundedInflight c (stepInflight l a) tr

/-- Whether a state is Failed. -/
def isFailedState : State → Bool
  | .failed _ => true
  | _ => false

/-- No dispatched slot in the trace ended in the Failed state. -/
def noFailedDispatched (tr : List SchedAction) : Bool :=
  tr.all (fun a => match a with
    | .dispatch s => !isFailedState s.res.final
    | _ => true)

/-- Concrete task fixtures for counterexamples and witnesses. -/
def t0 : Task := ⟨0, 0, "00", "00", .pending⟩

def t1 : Task := ⟨1, 1, "01", "01", .pending⟩

def t2 : Task := ⟨2, 2, "02", "02", .pending⟩

/-- A subprocess that exits immediately with code 0. -/
def oOk : TaskOracle := ⟨true, [.exitE (.code 0)], 0, 5⟩

/-- A subprocess that exits immediately with code 1, like the command
false. -/
def oFail : TaskOracle := ⟨true, [.exitE (.code 1)], 0, 5⟩

/-- A task whose executable cannot be launched: spawn fails. -/
def oSpawnFail : TaskOracle := ⟨false, [.exitE (.code 0)], 0, 0⟩

/-- A subprocess whose stderr read fails with an I/O error. -/
def oErr : TaskOracle := ⟨true, [.errErr "boom"], 0, 0⟩

/-- The default name filter .* — matches everything. -/
def allMatch : String → Bool := fun _ => true

/-- A name filter matching only the name 01. -/
def match01 : String → Bool := fun s => s == "01"

/-- A picker that always reports the first finishable handle. -/
def pick0 : Nat → Nat := fun _ => 0

/-- An oracle where task 0 fails and the others succeed. -/
def oracleFail0 : Nat → TaskOracle := fun n => if n = 0 then oFail else oOk

/-- Concrete run for C2's counterexample: one task whose spawn fails. -/
def runC2 : List SchedAction × RunnerRes :=
  runScheduler 3 [] [] allMatch (fun _ => oSpawnFail) pick0 [t0]

/-- Concrete run for C2's witness: sequential, task 0 fails. -/
def runC2w : List SchedAction × RunnerRes :=
  runScheduler 3 [] [] allMatch oracleFail0 pick0 [t0, t1]

/-- Concrete run for C4's counterexample: tasks 0 and 1 share range (0,1),
task 2 is a barrier, task 0 fails, so the failure is observed at task 2's
sync drain while task 1's handle is still pending. -/
def runC4 : List SchedAction × RunnerRes :=
  runScheduler 3 [(0, 1)] [] allMatch oracleFail0 pick0 [t0, t1, t2]

/-- Concrete run for C4's witness and C7's counterexample: tasks 0 and 1
share range (0,5), task 0 fails, the failure is observed at the final
drain. -/
def runC4w : List SchedAction × RunnerRes :=
  runScheduler 3 [(0, 5)] [] allMatch oracleFail0 pick0 [t0, t1]

/-- Concrete sequential run for C5's witness. -/
def runC5 : List SchedAction × RunnerRes :=
  runScheduler 3 [] [] allMatch (fun _ => oOk) pick0 [t0, t1]

/-- Concrete run for C6: the name filter rejects task 0, the range list
(1,2) covers only task 1. -/
def runC6 : List SchedAction × RunnerRes :=
  runScheduler 3 [(1, 2)] [] match01 (fun _ => oOk) pick0 [t0, t1]

/-- Concrete run for C9's counterexample: one task whose spawn fails. -/
def runC9 : List SchedAction × RunnerRes :=
  runScheduler 3 [] [] allMatch (fun _ => oSpawnFail) pick0 [t0]

/-- The state transitions claim C3 allows: Pending to Running, Running to
Complete, Running to Failed, and Pending to Skipped. -/
def allowedTransition : State → State → Prop
  | .pending, .running _ => True
  | .running _, .complete _ => True
  | .running _, .failed _ => True
  | .pending, .skipped => True
  | _, _ => False

end Tickbox

namespace Tickbox

theorem find?_eq_head?_filter {α : Type} (p : α → Bool) (l : List α) :
    l.find? p = (l.filter p).head? := by
  induction l with
  | nil => rfl
  | cons a l ih =>
    by_cases h : p a = true
    · rw [List.find?_cons_of_pos _ h, List.filter_cons_of_pos h]
      rfl
    · rw [List.find?_cons_of_neg _ h, List.filter_cons_of_neg h, ih]

/-- C1: sync_point returns, for a non-empty range list, true if no range
contains the task's id and otherwise true unless every running task's id
is inside the first range containing the task's id (regexes ignored); for
an empty range list with some regex matching the task's name, true unless
the first such regex matches every running task's name; and true when
neither applies.  Stated as equality with syncPointSpec, the direct
transcription of the claim. -/
theorem c1_sync_point_first_match (task : Task) (running : List Task)
    (opt_par : List (Nat × Nat)) (conf_par_re : List (String → Bool)) :
    sync_point task running opt_par conf_par_re =
      syncPointSpec task running opt_par conf_par_re := by
  cases opt_par with
  | nil =>
    unfold sync_point syncPointSpec
    simp only [find?_eq_head?_filter]
    rfl
  | cons r rs =>
    have hne : ((r :: rs : List (Nat × Nat)).isEmpty) = false := rfl
    unfold sync_point syncPointSpec
    rw [hne]
    simp only [Bool.not_false, if_true, Bool.false_eq_true, if_false]
    rw [find?_eq_head?_filter]
    by_cases hall : (r :: rs).all (fun q => !containsId q task.id) = true
    · have hfil : (r :: rs).filter (fun q => containsId q task.id) = [] := by
        rw [List.filter_eq_nil_iff]
        intro a ha
        have := (List.all_eq_true.mp hall) a ha
        simpa using this
      rw [hfil, if_pos hall]
      rfl
    · rw [if_neg hall]

/-- C10: parse_range s succeeds with (start, stop) exactly when s splits on
the dash into exactly two parts, both parse as usize, and start <= stop;
every accepted range therefore satisfies start <= stop. -/
theorem c10_parse_range_ok (s : String) (a b : Nat) :
    parse_range s = .ok (a, b) ↔
      (∃ p q, s.splitOn "-" = [p, q] ∧ parseUsize p = some a ∧
        parseUsize q = some b ∧ a ≤ b) := by
  unfold parse_range
  cases h : s.splitOn "-" with
  | nil => simp [h]
  | cons p rest =>
    cases rest with
    | nil => simp [h]
    | cons q rest2 =>
      cases rest2 with
      | nil =>
        simp only [h, List.length_cons, List.length_nil, if_pos rfl,
          List.getD, List.get?, Option.getD_some]
        cases hp : parseUsize p with
        | none => simp [hp]
        | some a' =>
          cases hq : parseUsize q with
          | none => simp [hq]
          | some b' =>
            by_cases hle : a' > b'
            · simp only [hle, if_pos, reduceIte]
              constructor
              · intro hcontra; cases hcontra
              · rintro ⟨p', q', hpq, hpa, hqb, hab⟩
                obtain ⟨rfl, rfl⟩ : p' = p ∧ q' = q := by
                  constructor <;> simp_all
                rw [hp] at hpa
                rw [hq] at hqb
                cases hpa; cases hqb
                omega
            · simp only [hle, reduceIte, Except.ok.injEq, Prod.mk.injEq]
              constructor
              · rintro ⟨rfl, rfl⟩
                exact ⟨p, q, rfl, hp, hq, by omega⟩
              · rintro ⟨p', q', hpq, hpa, hqb, hab⟩
                obtain ⟨rfl, rfl⟩ : p' = p ∧ q' = q := by
                  constructor <;> simp_all
                rw [hp] at hpa
                rw [hq] at hqb
                cases hpa; cases hqb
                exact ⟨rfl, rfl⟩
      | cons r rest3 => simp [h]

theorem taskBody_ret_false_iff_failed (t : Task) (matched : Bool) (o : TaskOracle) :
    (taskBody t matched o).ret = .ret false ↔
      ∃ d, (taskBody t matched o).final = .failed d := by
  unfold taskBody
  cases matched with
  | false => simp
  | true =>
    simp only [if_pos rfl]
    cases h : (runCommand t.name o.spawnOk o.script none).outcome <;> simp [h]
    case retOk b => cases b <;> simp

theorem drainAll_no_dispatch (l : Slots) (s : Slot) :
    SchedAction.dispatch s ∉ (drainAll l).1 := by
  induction l with
  | nil => simp [drainAll]
  | cons a l ih =>
    unfold drainAll
    cases a.res.ret with
    | ret b => cases b <;> simp_all
    | panicked => simp
    | hung => simp

theorem drainAll_none_ret_true (l : Slots) (h : (drainAll l).2 = none) :
    ∀ s ∈ l, s.res.ret = .ret true := by
  induction l with
  | nil => simp
  | cons a l ih =>
    unfold drainAll at h
    cases ha : a.res.ret with
    | ret b =>
      cases b with
      | false => rw [ha] at h; simp at h
      | true =>
        rw [ha] at h
        simp only at h
        intro s hs
        rcases List.mem_cons.mp hs with rfl | hs
        · exact ha
        · exact ih h s hs
    | panicked => rw [ha] at h; simp at h
    | hung => rw [ha] at h; simp at h

theorem drainAll_none_acts (l : Slots) (h : (drainAll l).2 = none) :
    ∀ a ∈ (drainAll l).1, ∃ m, a = .join m (.ret true) := by
  induction l with
  | nil => simp [drainAll]
  | cons s l ih =>
    unfold drainAll at h ⊢
    cases hs : s.res.ret with
    | ret b =>
      cases b with
      | false => rw [hs] at h; simp at h
      | true =>
        rw [hs] at h
        simp only at h ⊢
        intro a ha
        rcases List.mem_cons.mp ha with rfl | ha
        · exact ⟨s.n, rfl⟩
        · exact ih h a ha
    | panicked => rw [hs] at h; simp at h
    | hung => rw [hs] at h; simp at h

theorem drainAll_some_cases (l : Slots) (r : RunnerRes) (h : (drainAll l).2 = some r) :
    r = .panicked ∨ r = .hung ∨
      (r = .completed false ∧ ∃ s ∈ l, s.res.ret = .ret false) := by
  induction l with
  | nil => simp [drainAll] at h
  | cons s l ih =>
    unfold drainAll at h
    cases hs : s.res.ret with
    | ret b =>
      cases b with
      | false =>
        rw [hs] at h
        simp only [Option.some.injEq] at h
        exact Or.inr (Or.inr ⟨h.symm, s, List.mem_cons_self s l, hs⟩)
      | true =>
        rw [hs] at h
        simp only at h
        rcases ih h with h1 | h1 | ⟨h1, s', hs', hr⟩
        · exact Or.inl h1
        · exact Or.inr (Or.inl h1)
        · exact Or.inr (Or.inr ⟨h1, s', List.mem_cons_of_mem s hs', hr⟩)
    | panicked =>
      rw [hs] at h
      simp only [Option.some.injEq] at h
      exact Or.inl h.symm
    | hung =>
      rw [hs] at h
      simp only [Option.some.injEq] at h
      exact Or.inr (Or.inl h.symm)

theorem finalDrain_no_dispatch (acc : Bool) (l : Slots) (s : Slot) :
    SchedAction.dispatch s ∉ (finalDrain acc l).1 := by
  induction l generalizing acc with
  | nil => simp [finalDrain]
  | cons a l ih =>
    unfold finalDrain
    cases a.res.ret with
    | ret b => simpa using ih (acc && b)
    | panicked => simp
    | hung => simp

theorem finalDrain_completed_true (acc : Bool) (l : Slots)
    (h : (finalDrain acc l).2 = .completed true) :
    acc = true ∧ ∀ s ∈ l, s.res.ret = .ret true := by
  induction l generalizing acc with
  | nil =>
    simp only [finalDrain, RunnerRes.completed.injEq] at h
    exact ⟨h, by simp⟩
  | cons s l ih =>
    unfold finalDrain at h
    cases hs : s.res.ret with
    | ret b =>
      rw [hs] at h
      simp only at h
      obtain ⟨hacc, hrest⟩ := ih (acc && b) h
      obtain ⟨ha, hb⟩ : acc = true ∧ b = true := by simpa using hacc
      refine ⟨ha, ?_⟩
      intro s' hs'
      rcases List.mem_cons.mp hs' with rfl | hs'
      · rw [hs, hb]
      · exact hrest s' hs'
    | panicked => rw [hs] at h; simp at h
    | hung => rw [hs] at h; simp at h

theorem finalDrain_completed_false (acc : Bool) (l : Slots)
    (h : (finalDrain acc l).2 = .completed false) :
    acc = false ∨ ∃ s ∈ l, s.res.ret = .ret false := by
  induction l generalizing acc with
  | nil =>
    simp only [finalDrain, RunnerRes.completed.injEq] at h
    exact Or.inl h
  | cons s l ih =>
    unfold finalDrain at h
    cases hs : s.res.ret with
    | ret b =>
      rw [hs] at h
      simp only at h
      rcases ih (acc && b) h with hacc | ⟨s', hs', hr⟩
      · cases b with
        | false => exact Or.inr ⟨s, List.mem_cons_self s l, hs⟩
        | true =>
          rw [Bool.and_true] at hacc
          exact Or.inl hacc
      · exact Or.inr ⟨s', List.mem_cons_of_mem s hs', hr⟩
    | panicked => rw [hs] at h; simp at h
    | hung => rw [hs] at h; simp at h

theorem pickNonHung_spec (l : Slots) (j : Nat) (sel : Slot) (rem : Slots)
    (h : pickNonHung l j = some (sel, rem)) :
    sel ∈ l ∧ (∀ p ∈ l, p = sel ∨ p ∈ rem) := by
  induction l generalizing j rem with
  | nil => simp [pickNonHung] at h
  | cons s l ih =>
    unfold pickNonHung at h
    by_cases hh : isHung s.res.ret = true
    · rw [if_pos hh] at h
      cases hrec : pickNonHung l j with
      | none => rw [hrec] at h; simp at h
      | some pr =>
        rw [hrec] at h
        simp only [Option.some.injEq, Prod.mk.injEq] at h
        obtain ⟨h1, h2⟩ := h
        subst h1
        subst h2
        obtain ⟨hmem, hcov⟩ := ih j pr.2 (by rw [hrec])
        refine ⟨List.mem_cons_of_mem s hmem, ?_⟩
        intro p hp
        rcases List.mem_cons.mp hp with hps | hp
        · subst hps
          exact Or.inr (List.mem_cons_self _ _)
        · rcases hcov p hp with h3 | h3
          · exact Or.inl h3
          · exact Or.inr (List.mem_cons_of_mem s h3)
    · rw [if_neg hh] at h
      by_cases hj : j = 0
      · rw [if_pos hj] at h
        simp only [Option.some.injEq, Prod.mk.injEq] at h
        obtain ⟨h1, h2⟩ := h
        subst h1
        subst h2
        refine ⟨List.mem_cons_self _ _, ?_⟩
        intro p hp
        rcases List.mem_cons.mp hp with hps | hp
        · exact Or.inl hps
        · exact Or.inr hp
      · rw [if_neg hj] at h
        cases hrec : pickNonHung l (j - 1) with
        | none => rw [hrec] at h; simp at h
        | some pr =>
          rw [hrec] at h
          simp only [Option.some.injEq, Prod.mk.injEq] at h
          obtain ⟨h1, h2⟩ := h
          subst h1
          subst h2
          obtain ⟨hmem, hcov⟩ := ih (j - 1) pr.2 (by rw [hrec])
          refine ⟨List.mem_cons_of_mem s hmem, ?_⟩
          intro p hp
          rcases List.mem_cons.mp hp with hps | hp
          · subst hps
            exact Or.inr (List.mem_cons_self _ _)
          · rcases hcov p hp with h3 | h3
            · exact Or.inl h3
            · exact Or.inr (List.mem_cons_of_mem s h3)

theorem pickNonHung_rem_sub (l : Slots) (j : Nat) (sel : Slot) (rem : Slots)
    (h : pickNonHung l j = some (sel, rem)) :
    ∀ p ∈ rem, p ∈ l := by
  induction l generalizing j rem with
  | nil => simp [pickNonHung] at h
  | cons s l ih =>
    unfold pickNonHung at h
    by_cases hh : isHung s.res.ret = true
    · rw [if_pos hh] at h
      cases hrec : pickNonHung l j with
      | none => rw [hrec] at h; simp at h
      | some pr =>
        rw [hrec] at h
        simp only [Option.some.injEq, Prod.mk.injEq] at h
        obtain ⟨h1, h2⟩ := h
        subst h1
        subst h2
        intro p hp
        rcases List.mem_cons.mp hp with hps | hp
        · subst hps; exact List.mem_cons_self _ _
        · exact List.mem_cons_of_mem s (ih j pr.2 (by rw [hrec]) p hp)
    · rw [if_neg hh] at h
      by_cases hj : j = 0
      · rw [if_pos hj] at h
        simp only [Option.some.injEq, Prod.mk.injEq] at h
        obtain ⟨h1, h2⟩ := h
        subst h1
        subst h2
        intro p hp
        exact List.mem_cons_of_mem s hp
      · rw [if_neg hj] at h
        cases hrec : pickNonHung l (j - 1) with
        | none => rw [hrec] at h; simp at h
        | some pr =>
          rw [hrec] at h
          simp only [Option.some.injEq, Prod.mk.injEq] at h
          obtain ⟨h1, h2⟩ := h
          subst h1
          subst h2
          intro p hp
          rcases List.mem_cons.mp hp with hps | hp
          · subst hps; exact List.mem_cons_self _ _
          · exact List.mem_cons_of_mem s (ih (j - 1) pr.2 (by rw [hrec]) p hp)

theorem capSelect_inl_completed (slots : Slots) (pick : Nat) (tr : List SchedAction)
    (b : Bool) (h : capSelect slots pick = .inl (tr, .completed b)) :
    b = false ∧ ∃ s ∈ slots, s.res.ret = .ret false ∧ tr = [.join s.n (.ret false)] := by
  unfold capSelect at h
  split at h
  · simp at h
  · dsimp only at h
    split at h
    · simp at h
    · rename_i sel rem hpk
      split at h
      · simp at h
      · rename_i hret
        simp only [Sum.inl.injEq, Prod.mk.injEq, RunnerRes.completed.injEq] at h
        exact ⟨h.2.symm, sel, (pickNonHung_spec _ _ _ _ hpk).1, hret, h.1.symm⟩
      · simp at h
      · simp at h

theorem capSelect_inl_no_dispatch (slots : Slots) (pick : Nat) (tr : List SchedAction)
    (r : RunnerRes) (h : capSelect slots pick = .inl (tr, r)) :
    ∀ s, SchedAction.dispatch s ∉ tr := by
  unfold capSelect at h
  split at h
  · simp only [Sum.inl.injEq, Prod.mk.injEq] at h
    rw [← h.1]
    simp
  · dsimp only at h
    split at h
    · simp only [Sum.inl.injEq, Prod.mk.injEq] at h
      rw [← h.1]
      simp
    · split at h
      · simp at h
      · simp only [Sum.inl.injEq, Prod.mk.injEq] at h
        rw [← h.1]
        simp
      · simp only [Sum.inl.injEq, Prod.mk.injEq] at h
        rw [← h.1]
        simp
      · simp only [Sum.inl.injEq, Prod.mk.injEq] at h
        rw [← h.1]
        simp

theorem capSelect_inr_spec (slots : Slots) (pick : Nat) (tr : List SchedAction)
    (rem : Slots) (h : capSelect slots pick = .inr (tr, rem)) :
    ∃ sel ∈ slots, sel.res.ret = .ret true ∧ tr = [.join sel.n (.ret true)] ∧
      (∀ p ∈ slots, p = sel ∨ p ∈ rem) ∧ (∀ p ∈ rem, p ∈ slots) := by
  unfold capSelect at h
  split at h
  · simp at h
  · dsimp only at h
    split at h
    · simp at h
    · rename_i sel rem1 hpk
      split at h
      · rename_i hret
        simp only [Sum.inr.injEq, Prod.mk.injEq] at h
        obtain ⟨htr, hrem⟩ := h
        subst hrem
        exact ⟨sel, (pickNonHung_spec _ _ _ _ hpk).1, hret, htr.symm,
          (pickNonHung_spec _ _ _ _ hpk).2, pickNonHung_rem_sub _ _ _ _ hpk⟩
      · simp at h
      · simp at h
      · simp at h

theorem capPhase_inl_no_dispatch (maxConc : Nat) (picker : Nat → Nat)
    (slots : Slots) (k : Nat) (tr : List SchedAction) (r : RunnerRes)
    (h : capPhase maxConc picker slots k = .inl (tr, r)) :
    ∀ s, SchedAction.dispatch s ∉ tr := by
  unfold capPhase at h
  split at h
  · split at h
    · rename_i r1 heq
      simp only [Sum.inl.injEq] at h
      subst h
      exact capSelect_inl_no_dispatch _ _ _ _ heq
    · simp at h
  · simp at h

theorem capPhase_inl_completed (maxConc : Nat) (picker : Nat → Nat)
    (slots : Slots) (k : Nat) (tr : List SchedAction) (b : Bool)
    (h : capPhase maxConc picker slots k = .inl (tr, .completed b)) :
    b = false ∧ ∃ s ∈ slots, s.res.ret = .ret false := by
  unfold capPhase at h
  split at h
  · split at h
    · rename_i r1 heq
      simp only [Sum.inl.injEq] at h
      subst h
      obtain ⟨hb, s, hs, hret, -⟩ := capSelect_inl_completed _ _ _ _ heq
      exact ⟨hb, s, hs, hret⟩
    · simp at h
  · simp at h

theorem capPhase_inr_spec (maxConc : Nat) (picker : Nat → Nat)
    (slots : Slots) (k : Nat) (tr : List SchedAction) (slots1 : Slots) (k1 : Nat)
    (h : capPhase maxConc picker slots k = .inr (tr, slots1, k1)) :
    (∀ a ∈ tr, ∃ m, a = .join m (.ret true)) ∧
    (∀ p ∈ slots1, p ∈ slots) ∧
    (∀ p ∈ slots, p ∈ slots1 ∨ p.res.ret = .ret true) := by
  unfold capPhase at h
  split at h
  · split at h
    · simp at h
    · rename_i tr0 rem heq
      simp only [Sum.inr.injEq, Prod.mk.injEq] at h
      obtain ⟨htr, hrem, -⟩ := h
      subst htr
      subst hrem
      obtain ⟨sel, hsel, hret, htr0, hcov, hsub⟩ := capSelect_inr_spec _ _ _ _ heq
      refine ⟨?_, hsub, ?_⟩
      · intro a ha
        rw [htr0] at ha
        rcases List.mem_cons.mp ha with rfl | ha
        · exact ⟨sel.n, rfl⟩
        · simp at ha
      · intro p hp
        rcases hcov p hp with rfl | hp2
        · exact Or.inr hret
        · exact Or.inl hp2
  · simp only [Sum.inr.injEq, Prod.mk.injEq] at h
    obtain ⟨htr, hrem, -⟩ := h
    subst htr
    subst hrem
    refine ⟨by simp, fun p hp => hp, fun p hp => Or.inl hp⟩

theorem schedStep_inl_no_dispatch (maxConc : Nat) (ranges : List (Nat × Nat))
    (regexes : List (String → Bool)) (matching : String → Bool)
    (oracle : Nat → TaskOracle) (picker : Nat → Nat)
    (n : Nat) (t : Task) (slots : Slots) (k : Nat)
    (tr : List SchedAction) (r : RunnerRes)
    (h : schedStep maxConc ranges regexes matching oracle picker n t slots k =
      .inl (tr, r)) :
    ∀ s, SchedAction.dispatch s ∉ tr := by
  unfold schedStep at h
  split at h
  · rename_i r1 heq
    simp only [Sum.inl.injEq] at h
    subst h
    exact capPhase_inl_no_dispatch _ _ _ _ _ _ heq
  · rename_i tr1 slots1 k1 heq
    dsimp only at h
    split at h
    · split at h
      · rename_i hd
        simp only [Sum.inl.injEq, Prod.mk.injEq] at h
        obtain ⟨htr, -⟩ := h
        subst htr
        intro s hs
        rcases List.mem_append.mp hs with hs1 | hs2
        · obtain ⟨m, hm⟩ := (capPhase_inr_spec _ _ _ _ _ _ _ heq).1 _ hs1
          cases hm
        · rcases List.mem_cons.mp hs2 with hsc | hsd
          · cases hsc
          · have := drainAll_no_dispatch slots1 s
            rw [hd] at this
            exact this hsd
      · simp at h
    · simp at h

theorem schedStep_inl_completed (maxConc : Nat) (ranges : List (Nat × Nat))
    (regexes : List (String → Bool)) (matching : String → Bool)
    (oracle : Nat → TaskOracle) (picker : Nat → Nat)
    (n : Nat) (t : Task) (slots : Slots) (k : Nat)
    (tr : List SchedAction) (b : Bool)
    (h : schedStep maxConc ranges regexes matching oracle picker n t slots k =
      .inl (tr, .completed b)) :
    b = false ∧ ∃ s ∈ slots, s.res.ret = .ret false := by
  unfold schedStep at h
  split at h
  · rename_i r1 heq
    simp only [Sum.inl.injEq] at h
    subst h
    exact capPhase_inl_completed _ _ _ _ _ _ heq
  · rename_i tr1 slots1 k1 heq
    dsimp only at h
    split at h
    · split at h
      · rename_i trD r2 hd
        simp only [Sum.inl.injEq, Prod.mk.injEq] at h
        obtain ⟨-, hr⟩ := h
        have h2 : (drainAll slots1).2 = some r2 := by rw [hd]
        rcases drainAll_some_cases _ _ h2 with h3 | h3 | ⟨h3, s, hs, hret⟩
        · rw [h3] at hr
          cases hr
        · rw [h3] at hr
          cases hr
        · rw [h3] at hr
          have hb : b = false := by
            cases hr
            rfl
          refine ⟨hb, ?_⟩
          rcases (capPhase_inr_spec _ _ _ _ _ _ _ heq).2.1 s hs with hss
          exact ⟨s, hss, hret⟩
      · simp at h
    · simp at h

theorem schedStep_inr_spec (maxConc : Nat) (ranges : List (Nat × Nat))
    (regexes : List (String → Bool)) (matching : String → Bool)
    (oracle : Nat → TaskOracle) (picker : Nat → Nat)
    (n : Nat) (t : Task) (slots : Slots) (k : Nat)
    (tr : List SchedAction) (slotsN : Slots) (kN : Nat)
    (h : schedStep maxConc ranges regexes matching oracle picker n t slots k =
      .inr (tr, slotsN, kN)) :
    (∀ s, SchedAction.dispatch s ∈ tr → s = mkSlot matching oracle n t) ∧
    SchedAction.dispatch (mkSlot matching oracle n t) ∈ tr ∧
    mkSlot matching oracle n t ∈ slotsN ∧
    (∀ p ∈ slotsN, p ∈ slots ∨ p = mkSlot matching oracle n t) ∧
    (∀ p ∈ slots, p ∈ slotsN ∨ p.res.ret = .ret true) ∧
    (∀ m, SchedAction.join m (.ret false) ∉ tr) ∧
    (∃ rns sb, SchedAction.syncCheck n rns sb ∈ tr) := by
  unfold schedStep at h
  split at h
  · simp at h
  · rename_i tr1 slots1 k1 heq
    obtain ⟨hacts, hsub, hcov⟩ := capPhase_inr_spec _ _ _ _ _ _ _ heq
    dsimp only at h
    split at h
    · rename_i hsp
      split at h
      · simp at h
      · rename_i trD hd
        simp only [Sum.inr.injEq, Prod.mk.injEq] at h
        obtain ⟨htr, hslots, -⟩ := h
        subst htr
        subst hslots
        have hdn : (drainAll slots1).2 = none := by rw [hd]
        have hdacts : ∀ a ∈ trD, ∃ m, a = .join m (.ret true) := by
          have := drainAll_none_acts slots1 hdn
          rw [hd] at this
          exact this
        have hdall : ∀ s ∈ slots1, s.res.ret = .ret true := drainAll_none_ret_true _ hdn
        refine ⟨?_, ?_, ?_, ?_, ?_, ?_, ?_⟩
        · intro s hs
          rcases List.mem_append.mp hs with hs1 | hs2
          · rcases List.mem_append.mp hs1 with hs3 | hs4
            · obtain ⟨m, hm⟩ := hacts _ hs3
              cases hm
            · rcases List.mem_cons.mp hs4 with hsc | hsd
              · cases hsc
              · obtain ⟨m, hm⟩ := hdacts _ hsd
                cases hm
          · rcases List.mem_singleton.mp hs2 with hmk
            cases hmk
            rfl
        · simp
        · simp
        · intro p hp
          rcases List.mem_singleton.mp hp with rfl
          exact Or.inr rfl
        · intro p hp
          rcases hcov p hp with hp1 | hp1
          · exact Or.inr (hdall p hp1)
          · exact Or.inr hp1
        · intro m hm
          rcases List.mem_append.mp hm with hs1 | hs2
          · rcases List.mem_append.mp hs1 with hs3 | hs4
            · obtain ⟨m', hm'⟩ := hacts _ hs3
              cases hm'
            · rcases List.mem_cons.mp hs4 with hsc | hsd
              · cases hsc
              · obtain ⟨m', hm'⟩ := hdacts _ hsd
                cases hm'
          · rcases List.mem_singleton.mp hs2 with hmk
            cases hmk
        · exact ⟨slots1.map (·.n),
            sync_point t (slots1.map (·.task)) ranges regexes, by simp⟩
    · rename_i hsp
      simp only [Sum.inr.injEq, Prod.mk.injEq] at h
      obtain ⟨htr, hslots, -⟩ := h
      subst htr
      subst hslots
      refine ⟨?_, ?_, ?_, ?_, ?_, ?_, ?_⟩
      · intro s hs
        rcases List.mem_append.mp hs with hs1 | hs2
        · obtain ⟨m, hm⟩ := hacts _ hs1
          cases hm
        · rcases List.mem_cons.mp hs2 with hsc | hsd
          · cases hsc
          · rcases List.mem_singleton.mp hsd with hmk
            cases hmk
            rfl
      · simp
      · simp
      · intro p hp
        rcases List.mem_append.mp hp with hp1 | hp1
        · exact Or.inl (hsub p hp1)
        · exact Or.inr (List.mem_singleton.mp hp1)
      · intro p hp
        rcases hcov p hp with hp1 | hp1
        · exact Or.inl (by rw [List.mem_append]; exact Or.inl hp1)
        · exact Or.inr hp1
      · intro m hm
        rcases List.mem_append.mp hm with hs1 | hs2
        · obtain ⟨m', hm'⟩ := hacts _ hs1
          cases hm'
        · rcases List.mem_cons.mp hs2 with hsc | hsd
          · cases hsc
          · rcases List.mem_singleton.mp hsd with hmk
            cases hmk
      · exact ⟨slots1.map (·.n),
          sync_point t (slots1.map (·.task)) ranges regexes, by simp⟩

theorem append_cons_split {α : Type} (xs : List α) (a : α) :
    ∀ (ys p q : List α), a ∉ xs → xs ++ ys = p ++ a :: q →
      ∃ p1, p = xs ++ p1 ∧ ys = p1 ++ a :: q := by
  induction xs with
  | nil =>
    intro ys p q hnot h
    exact ⟨p, rfl, h⟩
  | cons x xs ih =>
    intro ys p q hnot h
    cases p with
    | nil =>
      rw [List.nil_append] at h
      rw [List.cons_append] at h
      injection h with h1 h2
      subst h1
      exact absurd (List.mem_cons_self x xs) hnot
    | cons ph pt =>
      rw [List.cons_append, List.cons_append] at h
      injection h with h1 h2
      obtain ⟨p1, hp, hy⟩ := ih ys pt q (fun hmem => hnot (List.mem_cons_of_mem _ hmem)) h2
      refine ⟨p1, ?_, hy⟩
      rw [← h1, hp, List.cons_append]

theorem schedLoop_completed_true (maxConc : Nat) (ranges : List (Nat × Nat))
    (regexes : List (String → Bool)) (matching : String → Bool)
    (oracle : Nat → TaskOracle) (picker : Nat → Nat) :
    ∀ (rem : List (Nat × Task)) (slots : Slots) (k : Nat) (tr : List SchedAction),
      schedLoop maxConc ranges regexes matching oracle picker rem slots k =
        (tr, .completed true) →
      (∀ s ∈ slots, s.res.ret = .ret true) ∧
      (∀ s, SchedAction.dispatch s ∈ tr → s.res.ret = .ret true) := by
  intro rem
  induction rem with
  | nil =>
    intro slots k tr h
    unfold schedLoop at h
    have h2 : (finalDrain true slots).2 = .completed true := by rw [h]
    refine ⟨(finalDrain_completed_true _ _ h2).2, ?_⟩
    intro s hs
    have htr : tr = (finalDrain true slots).1 := by rw [h]
    rw [htr] at hs
    exact absurd hs (finalDrain_no_dispatch true slots s)
  | cons p rest ih =>
    obtain ⟨n, t⟩ := p
    intro slots k tr h
    unfold schedLoop at h
    cases hstep : schedStep maxConc ranges regexes matching oracle picker n t slots k with
    | inl r =>
      rw [hstep] at h
      dsimp only at h
      subst h
      obtain ⟨hb, -⟩ := schedStep_inl_completed _ _ _ _ _ _ _ _ _ _ _ _ hstep
      cases hb
    | inr trip =>
      obtain ⟨tr1, slots1, k1⟩ := trip
      rw [hstep] at h
      dsimp only at h
      simp only [Prod.mk.injEq] at h
      obtain ⟨htr, hres⟩ := h
      subst htr
      have hrec := ih slots1 k1
        (schedLoop maxConc ranges regexes matching oracle picker rest slots1 k1).1
        (by rw [← hres])
      obtain ⟨hdisp, hdmem, hmk, hsubN, hcovN, hnofalse, -⟩ :=
        schedStep_inr_spec _ _ _ _ _ _ _ _ _ _ _ _ _ hstep
      constructor
      · intro s hs
        rcases hcovN s hs with hs1 | hs1
        · exact hrec.1 s hs1
        · exact hs1
      · intro s hs
        rcases List.mem_append.mp hs with hs1 | hs1
        · rw [hdisp s hs1]
          exact hrec.1 _ hmk
        · exact hrec.2 s hs1

theorem schedLoop_completed_false (maxConc : Nat) (ranges : List (Nat × Nat))
    (regexes : List (String → Bool)) (matching : String → Bool)
    (oracle : Nat → TaskOracle) (picker : Nat → Nat) :
    ∀ (rem : List (Nat × Task)) (slots : Slots) (k : Nat) (tr : List SchedAction),
      schedLoop maxConc ranges regexes matching oracle picker rem slots k =
        (tr, .completed false) →
      (∃ s ∈ slots, s.res.ret = .ret false) ∨
      (∃ s, SchedAction.dispatch s ∈ tr ∧ s.res.ret = .ret false) := by
  intro rem
  induction rem with
  | nil =>
    intro slots k tr h
    unfold schedLoop at h
    have h2 : (finalDrain true slots).2 = .completed false := by rw [h]
    rcases finalDrain_completed_false _ _ h2 with hacc | hex
    · cases hacc
    · exact Or.inl hex
  | cons p rest ih =>
    obtain ⟨n, t⟩ := p
    intro slots k tr h
    unfold schedLoop at h
    cases hstep : schedStep maxConc ranges regexes matching oracle picker n t slots k with
    | inl r =>
      rw [hstep] at h
      dsimp only at h
      subst h
      obtain ⟨-, hex⟩ := schedStep_inl_completed _ _ _ _ _ _ _ _ _ _ _ _ hstep
      exact Or.inl hex
    | inr trip =>
      obtain ⟨tr1, slots1, k1⟩ := trip
      rw [hstep] at h
      dsimp only at h
      simp only [Prod.mk.injEq] at h
      obtain ⟨htr, hres⟩ := h
      subst htr
      have hrec := ih slots1 k1
        (schedLoop maxConc ranges regexes matching oracle picker rest slots1 k1).1
        (by rw [← hres])
      obtain ⟨hdisp, hdmem, hmk, hsubN, hcovN, hnofalse, -⟩ :=
        schedStep_inr_spec _ _ _ _ _ _ _ _ _ _ _ _ _ hstep
      rcases hrec with ⟨s, hs, hret⟩ | ⟨s, hs, hret⟩
      · rcases hsubN s hs with hs1 | hs1
        · exact Or.inl ⟨s, hs1, hret⟩
        · refine Or.inr ⟨s, ?_, hret⟩
          rw [hs1]
          exact List.mem_append.mpr (Or.inl hdmem)
      · exact Or.inr ⟨s, List.mem_append.mpr (Or.inr hs), hret⟩

theorem schedLoop_dispatch_mkSlot (maxConc : Nat) (ranges : List (Nat × Nat))
    (regexes : List (String → Bool)) (matching : String → Bool)
    (oracle : Nat → TaskOracle) (picker : Nat → Nat) :
    ∀ (rem : List (Nat × Task)) (slots : Slots) (k : Nat) (s : Slot),
      SchedAction.dispatch s ∈
        (schedLoop maxConc ranges regexes matching oracle picker rem slots k).1 →
      ∃ p ∈ rem, s = mkSlot matching oracle p.1 p.2 := by
  intro rem
  induction rem with
  | nil =>
    intro slots k s hs
    exact absurd hs (finalDrain_no_dispatch true slots s)
  | cons p rest ih =>
    obtain ⟨n, t⟩ := p
    intro slots k s hs
    unfold schedLoop at hs
    cases hstep : schedStep maxConc ranges regexes matching oracle picker n t slots k with
    | inl r =>
      rw [hstep] at hs
      dsimp only at hs
      have : (schedStep maxConc ranges regexes matching oracle picker n t slots k) =
          .inl (r.1, r.2) := by rw [hstep]
      exact absurd hs (schedStep_inl_no_dispatch _ _ _ _ _ _ _ _ _ _ _ _ this s)
    | inr trip =>
      obtain ⟨tr1, slots1, k1⟩ := trip
      rw [hstep] at hs
      dsimp only at hs
      obtain ⟨hdisp, -, -, -, -, -, -⟩ :=
        schedStep_inr_spec _ _ _ _ _ _ _ _ _ _ _ _ _ hstep
      rcases List.mem_append.mp hs with hs1 | hs1
      · exact ⟨(n, t), List.mem_cons_self _ _, hdisp s hs1⟩
      · obtain ⟨q, hq, hmk⟩ := ih slots1 k1 s hs1
        exact ⟨q, List.mem_cons_of_mem _ hq, hmk⟩

theorem schedLoop_no_dispatch_after_false (maxConc : Nat) (ranges : List (Nat × Nat))
    (regexes : List (String → Bool)) (matching : String → Bool)
    (oracle : Nat → TaskOracle) (picker : Nat → Nat) :
    ∀ (rem : List (Nat × Task)) (slots : Slots) (k : Nat)
      (p : List SchedAction) (m : Nat) (q : List SchedAction),
      (schedLoop maxConc ranges regexes matching oracle picker rem slots k).1 =
        p ++ SchedAction.join m (.ret false) :: q →
      ∀ s, SchedAction.dispatch s ∉ q := by
  intro rem
  induction rem with
  | nil =>
    intro slots k p m q h s hs
    have : SchedAction.dispatch s ∈ (finalDrain true slots).1 := by
      have : (schedLoop maxConc ranges regexes matching oracle picker [] slots k).1 =
          (finalDrain true slots).1 := rfl
      rw [← this]
      rw [h]
      rw [List.mem_append, List.mem_cons]
      exact Or.inr (Or.inr hs)
    exact absurd this (finalDrain_no_dispatch true slots s)
  | cons pr rest ih =>
    obtain ⟨n, t⟩ := pr
    intro slots k p m q h s hs
    rw [show schedLoop maxConc ranges regexes matching oracle picker ((n, t) :: rest) slots k =
      (match schedStep maxConc ranges regexes matching oracle picker n t slots k with
      | .inl r => r
      | .inr (tr, slots1, k1) =>
        ((tr ++ (schedLoop maxConc ranges regexes matching oracle picker rest slots1 k1).1),
          (schedLoop maxConc ranges regexes matching oracle picker rest slots1 k1).2)) from rfl] at h
    cases hstep : schedStep maxConc ranges regexes matching oracle picker n t slots k with
    | inl r =>
      rw [hstep] at h
      dsimp only at h
      have hr : (schedStep maxConc ranges regexes matching oracle picker n t slots k) =
          .inl (r.1, r.2) := by rw [hstep]
      have hmem : SchedAction.dispatch s ∈ r.1 := by
        rw [h, List.mem_append, List.mem_cons]
        exact Or.inr (Or.inr hs)
      exact absurd hmem (schedStep_inl_no_dispatch _ _ _ _ _ _ _ _ _ _ _ _ hr s)
    | inr trip =>
      obtain ⟨tr1, slots1, k1⟩ := trip
      rw [hstep] at h
      dsimp only at h
      obtain ⟨-, -, -, -, -, hnofalse, -⟩ :=
        schedStep_inr_spec _ _ _ _ _ _ _ _ _ _ _ _ _ hstep
      obtain ⟨p1, -, hy⟩ := append_cons_split tr1 (SchedAction.join m (.ret false)) _ p q
        (hnofalse m) h
      exact ih slots1 k1 p1 m q hy s hs

theorem schedLoop_dispatch_syncCheck (maxConc : Nat) (ranges : List (Nat × Nat))
    (regexes : List (String → Bool)) (matching : String → Bool)
    (oracle : Nat → TaskOracle) (picker : Nat → Nat) :
    ∀ (rem : List (Nat × Task)) (slots : Slots) (k : Nat) (s : Slot),
      SchedAction.dispatch s ∈
        (schedLoop maxConc ranges regexes matching oracle picker rem slots k).1 →
      ∃ rns sb, SchedAction.syncCheck s.n rns sb ∈
        (schedLoop maxConc ranges regexes matching oracle picker rem slots k).1 := by
  intro rem
  induction rem with
  | nil =>
    intro slots k s hs
    exact absurd hs (finalDrain_no_dispatch true slots s)
  | cons p rest ih =>
    obtain ⟨n, t⟩ := p
    intro slots k s hs
    unfold schedLoop at hs ⊢
    cases hstep : schedStep maxConc ranges regexes matching oracle picker n t slots k with
    | inl r =>
      rw [hstep] at hs
      dsimp only at hs
      have hr : (schedStep maxConc ranges regexes matching oracle picker n t slots k) =
          .inl (r.1, r.2) := by rw [hstep]
      exact absurd hs (schedStep_inl_no_dispatch _ _ _ _ _ _ _ _ _ _ _ _ hr s)
    | inr trip =>
      obtain ⟨tr1, slots1, k1⟩ := trip
      rw [hstep] at hs
      dsimp only at hs ⊢
      obtain ⟨hdisp, -, -, -, -, -, hsync⟩ :=
        schedStep_inr_spec _ _ _ _ _ _ _ _ _ _ _ _ _ hstep
      rcases List.mem_append.mp hs with hs1 | hs1
      · have hsn : s = mkSlot matching oracle n t := hdisp s hs1
        obtain ⟨rns, sb, hmem⟩ := hsync
        refine ⟨rns, sb, ?_⟩
        rw [hsn]
        exact List.mem_append.mpr (Or.inl hmem)
      · obtain ⟨rns, sb, hmem⟩ := ih slots1 k1 s hs1
        exact ⟨rns, sb, List.mem_append.mpr (Or.inr hmem)⟩

theorem boundedInflight_nil (c : Nat) (l : List Nat) :
    boundedInflight c l [] ↔ l.length ≤ c := Iff.rfl

theorem boundedInflight_cons (c : Nat) (l : List Nat) (a : SchedAction)
    (tr : List SchedAction) :
    boundedInflight c l (a :: tr) ↔
      l.length ≤ c ∧ boundedInflight c (stepInflight l a) tr := Iff.rfl

theorem boundedInflight_head (c : Nat) (l : List Nat) (tr : List SchedAction)
    (h : boundedInflight c l tr) : l.length ≤ c := by
  cases tr with
  | nil => exact h
  | cons a tr => exact h.1

theorem boundedInflight_append (c : Nat) :
    ∀ (xs ys : List SchedAction) (l : List Nat),
      boundedInflight c l (xs ++ ys) ↔
        boundedInflight c l xs ∧
          boundedInflight c (List.foldl stepInflight l xs) ys := by
  intro xs
  induction xs with
  | nil =>
    intro ys l
    simp only [List.nil_append, List.foldl_nil]
    constructor
    · intro h
      exact ⟨boundedInflight_head c l ys h, h⟩
    · intro h
      exact h.2
  | cons a xs ih =>
    intro ys l
    rw [List.cons_append, List.foldl_cons, boundedInflight_cons, boundedInflight_cons,
      ih, and_assoc]

theorem boundedInflight_last (c : Nat) :
    ∀ (tr : List SchedAction) (l : List Nat),
      boundedInflight c l tr → (List.foldl stepInflight l tr).length ≤ c := by
  intro tr
  induction tr with
  | nil =>
    intro l h
    simpa using h
  | cons a tr ih =>
    intro l h
    rw [List.foldl_cons]
    exact ih _ ((boundedInflight_cons c l a tr).mp h).2

theorem boundedInflight_front (c : Nat) (p q : List SchedAction) (l : List Nat)
    (h : boundedInflight c l (p ++ q)) :
    (List.foldl stepInflight l p).length ≤ c := by
  obtain ⟨h1, -⟩ := (boundedInflight_append c p q l).mp h
  exact boundedInflight_last c p l h1

theorem sync_point_seq (t : Task) (R : List Task) : sync_point t R [] [] = true := rfl

theorem schedStep_seq (maxConc : Nat) (matching : String → Bool)
    (oracle : Nat → TaskOracle) (picker : Nat → Nat)
    (n : Nat) (t : Task) (slots : Slots) (k : Nat) (hlen : slots.length ≤ 1) :
    (∀ tr r, schedStep maxConc [] [] matching oracle picker n t slots k = .inl (tr, r) →
      boundedInflight 1 (slots.map (·.n)) tr) ∧
    (∀ tr slots1 k1,
      schedStep maxConc [] [] matching oracle picker n t slots k = .inr (tr, slots1, k1) →
      slots1.length ≤ 1 ∧
      boundedInflight 1 (slots.map (·.n)) tr ∧
      List.foldl stepInflight (slots.map (·.n)) tr = slots1.map (·.n)) := by
  have hsync : ∀ (R : List Task), sync_point t R [] [] = true := fun R => rfl
  cases slots with
  | nil =>
    by_cases hm : maxConc = 0
    · constructor
      · intro tr r heq
        simp [schedStep, capPhase, capSelect, hm] at heq
        obtain ⟨htr, -⟩ := heq
        subst htr
        simp [boundedInflight]
      · intro tr slots1 k1 heq
        simp [schedStep, capPhase, capSelect, hm] at heq
    · constructor
      · intro tr r heq
        simp [schedStep, capPhase, capSelect, drainAll, hm, hsync] at heq
      · intro tr slots1 k1 heq
        simp [schedStep, capPhase, capSelect, drainAll, hm, hsync] at heq
        obtain ⟨htr, hs1, -⟩ := heq
        subst htr
        subst hs1
        refine ⟨by simp, ?_, ?_⟩
        · simp [boundedInflight, stepInflight]
        · simp [stepInflight, mkSlot]
  | cons s rest =>
    cases rest with
    | cons s2 rest2 => simp at hlen
    | nil =>
      by_cases hm : maxConc ≤ 1
      · cases hr : s.res.ret with
        | hung =>
          constructor
          · intro tr r heq
            simp [schedStep, capPhase, capSelect, pickNonHung, isHung,
              List.countP_cons, List.countP_nil, hm, hr] at heq
            obtain ⟨htr, -⟩ := heq
            subst htr
            simp [boundedInflight]
          · intro tr slots1 k1 heq
            simp [schedStep, capPhase, capSelect, pickNonHung, isHung,
              List.countP_cons, List.countP_nil, hm, hr] at heq
        | panicked =>
          constructor
          · intro tr r heq
            simp [schedStep, capPhase, capSelect, pickNonHung, isHung,
              List.countP_cons, List.countP_nil, Nat.mod_one, hm, hr] at heq
            obtain ⟨htr, -⟩ := heq
            subst htr
            simp [boundedInflight, stepInflight, List.erase_cons_head]
          · intro tr slots1 k1 heq
            simp [schedStep, capPhase, capSelect, pickNonHung, isHung,
              List.countP_cons, List.countP_nil, Nat.mod_one, hm, hr] at heq
        | ret b =>
          cases b with
          | false =>
            constructor
            · intro tr r heq
              simp [schedStep, capPhase, capSelect, pickNonHung, isHung,
                List.countP_cons, List.countP_nil, Nat.mod_one, hm, hr] at heq
              obtain ⟨htr, -⟩ := heq
              subst htr
              simp [boundedInflight, stepInflight, List.erase_cons_head]
            · intro tr slots1 k1 heq
              simp [schedStep, capPhase, capSelect, pickNonHung, isHung,
                List.countP_cons, List.countP_nil, Nat.mod_one, hm, hr] at heq
          | true =>
            constructor
            · intro tr r heq
              simp [schedStep, capPhase, capSelect, pickNonHung, isHung,
                List.countP_cons, List.countP_nil, Nat.mod_one, drainAll,
                hm, hr, hsync] at heq
            · intro tr slots1 k1 heq
              simp [schedStep, capPhase, capSelect, pickNonHung, isHung,
                List.countP_cons, List.countP_nil, Nat.mod_one, drainAll,
                hm, hr, hsync] at heq
              obtain ⟨htr, hs1, -⟩ := heq
              subst htr
              subst hs1
              refine ⟨by simp, ?_, ?_⟩
              · simp [boundedInflight, stepInflight, List.erase_cons_head]
              · simp [stepInflight, mkSlot, List.erase_cons_head]
      · cases hr : s.res.ret with
        | hung =>
          constructor
          · intro tr r heq
            simp [schedStep, capPhase, drainAll, hm, hr, hsync] at heq
            obtain ⟨htr, -⟩ := heq
            subst htr
            simp [boundedInflight, stepInflight]
          · intro tr slots1 k1 heq
            simp [schedStep, capPhase, drainAll, hm, hr, hsync] at heq
        | panicked =>
          constructor
          · intro tr r heq
            simp [schedStep, capPhase, drainAll, hm, hr, hsync] at heq
            obtain ⟨htr, -⟩ := heq
            subst htr
            simp [boundedInflight, stepInflight, List.erase_cons_head]
          · intro tr slots1 k1 heq
            simp [schedStep, capPhase, drainAll, hm, hr, hsync] at heq
        | ret b =>
          cases b with
          | false =>
            constructor
            · intro tr r heq
              simp [schedStep, capPhase, drainAll, hm, hr, hsync] at heq
              obtain ⟨htr, -⟩ := heq
              subst htr
              simp [boundedInflight, stepInflight, List.erase_cons_head]
            · intro tr slots1 k1 heq
              simp [schedStep, capPhase, drainAll, hm, hr, hsync] at heq
          | true =>
            constructor
            · intro tr r heq
              simp [schedStep, capPhase, drainAll, hm, hr, hsync] at heq
            · intro tr slots1 k1 heq
              simp [schedStep, capPhase, drainAll, hm, hr, hsync] at heq
              obtain ⟨htr, hs1, -⟩ := heq
              subst htr
              subst hs1
              refine ⟨by simp, ?_, ?_⟩
              · simp [boundedInflight, stepInflight, List.erase_cons_head]
              · simp [stepInflight, mkSlot, List.erase_cons_head]

theorem schedLoop_seq_bounded (maxConc : Nat) (matching : String → Bool)
    (oracle : Nat → TaskOracle) (picker : Nat → Nat) :
    ∀ (rem : List (Nat × Task)) (slots : Slots) (k : Nat),
      slots.length ≤ 1 →
      boundedInflight 1 (slots.map (·.n))
        (schedLoop maxConc [] [] matching oracle picker rem slots k).1 := by
  intro rem
  induction rem with
  | nil =>
    intro slots k hlen
    cases slots with
    | nil => simp [schedLoop, finalDrain, boundedInflight]
    | cons s rest =>
      cases rest with
      | cons s2 rest2 => simp at hlen
      | nil =>
        cases hr : s.res.ret with
        | hung => simp [schedLoop, finalDrain, hr, boundedInflight]
        | panicked =>
          simp [schedLoop, finalDrain, hr, boundedInflight, stepInflight,
            List.erase_cons_head]
        | ret b =>
          simp [schedLoop, finalDrain, hr, boundedInflight, stepInflight,
            List.erase_cons_head]
  | cons p rest ih =>
    obtain ⟨n, t⟩ := p
    intro slots k hlen
    unfold schedLoop
    cases hstep : schedStep maxConc [] [] matching oracle picker n t slots k with
    | inl r =>
      dsimp only
      exact (schedStep_seq maxConc matching oracle picker n t slots k hlen).1 r.1 r.2
        (by rw [hstep])
    | inr trip =>
      obtain ⟨tr1, slots1, k1⟩ := trip
      dsimp only
      obtain ⟨hlen1, hbi, hfold⟩ :=
        (schedStep_seq maxConc matching oracle picker n t slots k hlen).2 tr1 slots1 k1 hstep
      refine (boundedInflight_append 1 tr1 _ _).mpr ⟨hbi, ?_⟩
      rw [hfold]
      exact ih slots1 k1 hlen1

/-- C3: over a run, a task's local state takes only the transitions
Pending to Running(start), Running to Complete(duration), Running to
Failed(duration), or Pending to Skipped; the sequence starts at Pending
and Pending never reappears after the first position.  The state of a task
is only ever assigned inside its spawned async block, modelled by
taskBody, whose states field lists the successive values of
steps[n].state. -/
theorem c3_state_transitions (t : Task) (matched : Bool) (o : TaskOracle) :
    (taskBody t matched o).states.head? = some .pending ∧
    List.Chain' allowedTransition (taskBody t matched o).states ∧
    State.pending ∉ (taskBody t matched o).states.tail := by
  cases matched with
  | false =>
    refine ⟨rfl, ?_, ?_⟩ <;> simp [taskBody, allowedTransition]
  | true =>
    cases h : (runCommand t.name o.spawnOk o.script none).outcome with
    | retOk b =>
      cases b <;> refine ⟨?_, ?_, ?_⟩ <;> simp [taskBody, h, allowedTransition]
    | retErr msg =>
      refine ⟨?_, ?_, ?_⟩ <;> simp [taskBody, h, allowedTransition]
    | panicked =>
      refine ⟨?_, ?_, ?_⟩ <;> simp [taskBody, h, allowedTransition]
    | hung =>
      refine ⟨?_, ?_, ?_⟩ <;> simp [taskBody, h, allowedTransition]

/-- C5: with the Sequential policy (no ranges and no name-pattern regexes
configured), at every point of the run at most one dispatched task has not
yet been awaited, whatever the configured maximum concurrency; in
particular every dispatch happens when the in-flight set is empty, i.e.
only after all previously dispatched tasks have finished, so no two tasks
are ever simultaneously Running. -/
theorem c5_sequential_exclusive (tasks : List Task) (maxConc : Nat)
    (matching : String → Bool) (oracle : Nat → TaskOracle) (picker : Nat → Nat)
    (p q : List SchedAction)
    (h : (runScheduler maxConc [] [] matching oracle picker tasks).1 = p ++ q) :
    (List.foldl stepInflight [] p).length ≤ 1 ∧
    (∀ s q2, q = SchedAction.dispatch s :: q2 → List.foldl stepInflight [] p = []) := by
  have hb : boundedInflight 1 ([] : List Nat)
      (runScheduler maxConc [] [] matching oracle picker tasks).1 := by
    have := schedLoop_seq_bounded maxConc matching oracle picker tasks.enum [] 0 (by simp)
    simpa [runScheduler] using this
  rw [h] at hb
  refine ⟨boundedInflight_front 1 p q [] hb, ?_⟩
  intro s q2 hq
  subst hq
  have h2 : (List.foldl stepInflight [] (p ++ [SchedAction.dispatch s])).length ≤ 1 := by
    have hsplit : p ++ SchedAction.dispatch s :: q2 =
        (p ++ [SchedAction.dispatch s]) ++ q2 := by simp
    rw [hsplit] at hb
    exact boundedInflight_front 1 _ q2 [] hb
  rw [List.foldl_append] at h2
  simp only [List.foldl_cons, List.foldl_nil] at h2
  have h3 : (List.foldl stepInflight [] p).length + 1 ≤ 1 := by
    simpa [stepInflight] using h2
  have h4 : (List.foldl stepInflight [] p).length = 0 := by omega
  exact List.length_eq_zero.mp h4

theorem c5_witness : (List.foldl stepInflight [] runC5.1).length ≤ 1 :=
  (c5_sequential_exclusive [t0, t1] 3 allMatch (fun _ => oOk) pick0 runC5.1 []
    (by simp [runC5])).1

/-- C2 counterexample: one task whose executable fails to spawn.  No task
ever reaches Failed (the only dispatched body panics while its state is
still Running), yet the runner panics, runner.await? propagates the
JoinError and the process exits 1, not 0 — refuting the claim that the
program exits 0 whenever no task ended Failed. -/
theorem c2_counterexample :
    mainExitCode runC2.2 = some 1 ∧ noFailedDispatched runC2.1 = true := ⟨rfl, rfl⟩

/-- C2 (amended): for every run in which the runner task completes and
returns a value b (no panic, no hang), b is false exactly when some
dispatched task ended in the Failed state, and the process exit code is 0
exactly when no dispatched task ended Failed. -/
theorem c2_exit_code (tasks : List Task) (maxConc : Nat) (ranges : List (Nat × Nat))
    (regexes : List (String → Bool)) (matching : String → Bool)
    (oracle : Nat → TaskOracle) (picker : Nat → Nat) (tr : List SchedAction) (b : Bool)
    (h : runScheduler maxConc ranges regexes matching oracle picker tasks =
      (tr, .completed b)) :
    (b = false ↔ ∃ s, SchedAction.dispatch s ∈ tr ∧ ∃ d, s.res.final = .failed d) ∧
    (mainExitCode (.completed b) = some 0 ↔
      ¬ ∃ s, SchedAction.dispatch s ∈ tr ∧ ∃ d, s.res.final = .failed d) := by
  have h' : schedLoop maxConc ranges regexes matching oracle picker tasks.enum [] 0 =
      (tr, .completed b) := h
  have h1 : (schedLoop maxConc ranges regexes matching oracle picker tasks.enum [] 0).1
      = tr := by rw [h']
  have hmain : b = false ↔
      ∃ s, SchedAction.dispatch s ∈ tr ∧ ∃ d, s.res.final = .failed d := by
    constructor
    · intro hb
      subst hb
      rcases schedLoop_completed_false maxConc ranges regexes matching oracle picker
        tasks.enum [] 0 tr h with ⟨s, hs, -⟩ | ⟨s, hdisp, hret⟩
      · simp at hs
      · obtain ⟨pp, -, hmk⟩ := schedLoop_dispatch_mkSlot maxConc ranges regexes matching
          oracle picker tasks.enum [] 0 s (by rw [h1]; exact hdisp)
        subst hmk
        exact ⟨_, hdisp, (taskBody_ret_false_iff_failed _ _ _).mp hret⟩
    · intro hex
      cases b with
      | false => rfl
      | true =>
        obtain ⟨s, hdisp, d, hfinal⟩ := hex
        have hret := (schedLoop_completed_true maxConc ranges regexes matching oracle
          picker tasks.enum [] 0 tr h).2 s hdisp
        obtain ⟨pp, -, hmk⟩ := schedLoop_dispatch_mkSlot maxConc ranges regexes matching
          oracle picker tasks.enum [] 0 s (by rw [h1]; exact hdisp)
        subst hmk
        have hfalse := (taskBody_ret_false_iff_failed _ _ _).mpr ⟨d, hfinal⟩
        have hret2 : (taskBody pp.2 (matching pp.2.name) (oracle pp.1)).ret =
            .ret true := hret
        rw [hret2] at hfalse
        cases hfalse
  refine ⟨hmain, ?_⟩
  cases b with
  | false =>
    simp only [mainExitCode]
    constructor
    · intro h0
      cases h0
    · intro hno
      exact absurd (hmain.mp rfl) hno
  | true =>
    simp only [mainExitCode]
    constructor
    · intro _ hex
      have hcon : (true : Bool) = false := hmain.mpr hex
      cases hcon
    · intro _
      trivial

theorem c2_witness :
    ∃ s, SchedAction.dispatch s ∈ runC2w.1 ∧ ∃ d, s.res.final = State.failed d :=
  ((c2_exit_code [t0, t1] 3 [] [] allMatch oracleFail0 pick0 runC2w.1 false rfl).1).mp rfl

/-- C4 counterexample: tasks 0 and 1 run in parallel (range (0,1)), task 2
is a barrier, task 0 fails.  The failure is observed at task 2's sync
drain: the runner returns false having dispatched tasks 0 and 1 but having
awaited only task 0 — the already-launched sibling task 1 is never awaited
before the runner returns, refuting the claim that every already-launched
sibling is awaited. -/
theorem c4_counterexample :
    runC4.2 = .completed false ∧ dispatchedNs runC4.1 = [0, 1] ∧
    joinedNs runC4.1 = [0] ∧
    isFailedState (taskBody t0 (allMatch t0.name) (oracleFail0 0)).final = true :=
  ⟨rfl, rfl, rfl, rfl⟩

/-- C4 (amended): after the scheduler observes a failure — it awaits a
handle that resolved to false — it dispatches no further task.  It does
not, however, await every already-launched sibling on early-return paths:
a failure observed at a concurrency-cap or sync-point boundary makes the
runner return immediately, leaving still-running handles unawaited (only a
failure first observed in the final drain leaves no sibling behind). -/
theorem c4_fail_fast (tasks : List Task) (maxConc : Nat) (ranges : List (Nat × Nat))
    (regexes : List (String → Bool)) (matching : String → Bool)
    (oracle : Nat → TaskOracle) (picker : Nat → Nat)
    (p : List SchedAction) (m : Nat) (q : List SchedAction)
    (h : (runScheduler maxConc ranges regexes matching oracle picker tasks).1 =
      p ++ SchedAction.join m (.ret false) :: q) :
    ∀ s, SchedAction.dispatch s ∉ q :=
  schedLoop_no_dispatch_after_false maxConc ranges regexes matching oracle picker
    tasks.enum [] 0 p m q h

theorem c4_witness :
    SchedAction.dispatch (mkSlot allMatch oracleFail0 1 t1) ∉ runC4w.1.drop 5 :=
  c4_fail_fast [t0, t1] 3 [(0, 5)] [] allMatch oracleFail0 pick0
    (runC4w.1.take 4) 0 (runC4w.1.drop 5) rfl (mkSlot allMatch oracleFail0 1 t1)

/-- C6 counterexample: the name filter rejects task 0 (name 00), the range
list (1,2) covers only task 1.  Task 0 is marked Skipped and its status is
emitted, as the claim says; but sync_point is consulted for task 0 itself
(syncCheck 0 [] true is in the trace) and task 0 sits in the running set
during task 1's sync check, forcing a sync-point wait (syncCheck 1 [0]
true) — refuting the claim that a filtered-out task never consults or
participates in the sync policy. -/
theorem c6_counterexample :
    (taskBody t0 (match01 t0.name) oOk).final = .skipped ∧
    Event.status { t0 with state := .skipped } ∈ (taskBody t0 (match01 t0.name) oOk).events ∧
    SchedAction.syncCheck 0 [] true ∈ runC6.1 ∧
    SchedAction.syncCheck 1 [0] true ∈ runC6.1 := by
  refine ⟨rfl, ?_, ?_, ?_⟩ <;> decide

/-- C6 (amended): a task whose name the filter rejects is marked Skipped,
its Status event is emitted, and its body immediately returns true — but
this happens inside the spawned body, after the task has been pushed into
the running set and after the sync policy was consulted for it: every
dispatched task, filtered out or not, has a sync_point evaluation recorded
for it in the trace. -/
theorem c6_skip_semantics :
    (∀ (t : Task) (o : TaskOracle),
      taskBody t false o =
        ⟨[.status { t with state := .skipped }], [.pending, .skipped], .skipped, .ret true⟩) ∧
    (∀ (tasks : List Task) (maxConc : Nat) (ranges : List (Nat × Nat))
      (regexes : List (String → Bool)) (matching : String → Bool)
      (oracle : Nat → TaskOracle) (picker : Nat → Nat) (s : Slot),
      SchedAction.dispatch s ∈
        (runScheduler maxConc ranges regexes matching oracle picker tasks).1 →
      ∃ rns sb, SchedAction.syncCheck s.n rns sb ∈
        (runScheduler maxConc ranges regexes matching oracle picker tasks).1) := by
  constructor
  · intro t o
    rfl
  · intro tasks maxConc ranges regexes matching oracle picker s hs
    exact schedLoop_dispatch_syncCheck maxConc ranges regexes matching oracle picker
      tasks.enum [] 0 s hs

theorem c6_witness :
    ∃ rns sb, SchedAction.syncCheck (mkSlot match01 (fun _ => oOk) 0 t0).n rns sb ∈
      (runScheduler 3 [(1, 2)] [] match01 (fun _ => oOk) pick0 [t0, t1]).1 :=
  c6_skip_semantics.2 [t0, t1] 3 [(1, 2)] [] match01 (fun _ => oOk) pick0
    (mkSlot match01 (fun _ => oOk) 0 t0) (by decide)

/-- C7 counterexample: tasks 0 and 1 share range (0,5), max concurrency 3,
task 0's subprocess exits with code 1.  Task 0 ends Failed, yet task 1 —
dispatched strictly after task 0 in dispatch order — starts running and
completes, refuting the claim that no task dispatched after a failing task
ever starts running. -/
theorem c7_counterexample :
    isFailedState (taskBody t0 (allMatch t0.name) (oracleFail0 0)).final = true ∧
    dispatchedNs runC4w.1 = [0, 1] ∧
    (taskBody t1 (allMatch t1.name) (oracleFail0 1)).states =
      [.pending, .running 0, .complete 5] ∧
    runC4w.2 = .completed false :=
  ⟨rfl, rfl, rfl, rfl⟩

/-- C7 (amended): a subprocess that exits non-zero or dies by a signal
makes run_command return Ok(false); on that path the task ends in
Failed(duration), a Wait event is emitted and the body returns false; and
after the scheduler has observed the failure (awaited a handle that
returned false) it dispatches no further task.  Tasks dispatched before
the failure is observed can still start and run. -/
theorem c7_failed_semantics :
    (∀ (name : String) (st : ExitSt) (rest : List MuxEvent) (eo oo : Bool)
      (acc : List Event),
      (muxLoop name (.exitE st :: rest) eo oo none acc).outcome = .retOk (isSuccess st)) ∧
    (∀ (t : Task) (o : TaskOracle),
      (runCommand t.name o.spawnOk o.script none).outcome = .retOk false →
      (taskBody t true o).final = .failed o.elapsed ∧
      Event.wait ∈ (taskBody t true o).events ∧
      (taskBody t true o).ret = .ret false) ∧
    (∀ (tasks : List Task) (maxConc : Nat) (ranges : List (Nat × Nat))
      (regexes : List (String → Bool)) (matching : String → Bool)
      (oracle : Nat → TaskOracle) (picker : Nat → Nat)
      (p : List SchedAction) (m : Nat) (q : List SchedAction),
      (runScheduler maxConc ranges regexes matching oracle picker tasks).1 =
        p ++ SchedAction.join m (.ret false) :: q →
      ∀ s, SchedAction.dispatch s ∉ q) := by
  refine ⟨?_, ?_, ?_⟩
  · intro name st rest eo oo acc
    rfl
  · intro t o h
    refine ⟨?_, ?_, ?_⟩ <;> simp [taskBody, h]
  · intro tasks maxConc ranges regexes matching oracle picker p m q h
    exact schedLoop_no_dispatch_after_false maxConc ranges regexes matching oracle picker
      tasks.enum [] 0 p m q h

theorem c7_witness :
    (taskBody t0 true oFail).final = State.failed 5 ∧
    Event.wait ∈ (taskBody t0 true oFail).events :=
  ⟨(c7_failed_semantics.2.1 t0 oFail rfl).1, (c7_failed_semantics.2.1 t0 oFail rfl).2.1⟩

/-- C8 counterexample: the consumer disconnects after one successful send,
so the banner goes through and the blank-line send after the subprocess
exits fails.  The supervisor panics (unwrap) instead of killing the
subprocess and returning: killed is false and the outcome is a panic —
refuting the claim that every failed event emission leads to a kill and an
immediate return. -/
theorem c8_counterexample :
    (runCommand "00" true [.exitE (.code 0)] (some 1)).killed = false ∧
    (runCommand "00" true [.exitE (.code 0)] (some 1)).outcome = .panicked :=
  ⟨rfl, rfl⟩

/-- C8 (amended): when a stdout or stderr line send fails because the
consumer disconnected, the supervisor kills its subprocess and returns
Ok(false) immediately, leaving the rest of the script unread; but a failed
banner send or a failed post-exit send panics the supervisor instead (the
source uses unwrap there), with no kill. -/
theorem c8_disconnect_semantics :
    (∀ (name ln : String) (rest : List MuxEvent) (oo : Bool) (acc : List Event),
      muxLoop name (.errLine ln :: rest) true oo (some 0) acc =
        ⟨acc, true, .retOk false, rest⟩) ∧
    (∀ (name ln : String) (rest : List MuxEvent) (eo : Bool) (acc : List Event),
      muxLoop name (.outLine ln :: rest) eo true (some 0) acc =
        ⟨acc, true, .retOk false, rest⟩) ∧
    (∀ (name : String) (st : ExitSt) (rest : List MuxEvent) (eo oo : Bool)
      (acc : List Event),
      muxLoop name (.exitE st :: rest) eo oo (some 0) acc =
        ⟨acc, false, .panicked, rest⟩) ∧
    (∀ (name : String) (script : List MuxEvent),
      runCommand name true script (some 0) = ⟨[], false, .panicked, script⟩) := by
  refine ⟨?_, ?_, ?_, ?_⟩ <;> intros <;> rfl

/-- C9 counterexample: a task whose spawn fails.  The supervisor panics at
the expect after the banner: no diagnostic AddLine is ever emitted (the
events are exactly the Running status and the banner), the body's handle
resolves to a panic, and the whole runner panics when it awaits that
handle — the run does not continue, refuting the claim that a spawn
failure is fatal only to that task and surfaces as an AddLine
diagnostic. -/
theorem c9_counterexample :
    (taskBody t0 (allMatch t0.name) oSpawnFail).ret = .panicked ∧
    (taskBody t0 (allMatch t0.name) oSpawnFail).events =
      [.status { t0 with state := .running 0 }, .addLine (banner "00")] ∧
    runC9.2 = .panicked :=
  ⟨rfl, rfl, rfl⟩

/-- C9 (amended): when run_command returns an I/O error (the Err path: a
pipe read failing), the failure is fatal only to that task: a diagnostic
AddLine is emitted, the task is not marked Failed (its state stays
Running), and the body returns true so the run continues.  A spawn
failure, in contrast, panics the supervisor (expect), so its handle
resolves to a JoinError. -/
theorem c9_io_error_semantics :
    (∀ (t : Task) (o : TaskOracle) (msg : String),
      (runCommand t.name o.spawnOk o.script none).outcome = .retErr msg →
      (taskBody t true o).final = .running o.start ∧
      Event.addLine ("Got an error: " ++ msg ++ "\n") ∈ (taskBody t true o).events ∧
      (taskBody t true o).ret = .ret true) ∧
    (∀ (t : Task) (o : TaskOracle), o.spawnOk = false →
      (taskBody t true o).ret = .panicked) := by
  constructor
  · intro t o msg h
    refine ⟨?_, ?_, ?_⟩ <;> simp [taskBody, h]
  · intro t o h
    simp [taskBody, runCommand, budDec, h]

theorem c9_witness :
    Event.addLine ("Got an error: " ++ "boom" ++ "\n") ∈ (taskBody t0 true oErr).events :=
  (c9_io_error_semantics.1 t0 oErr "boom" rfl).2.1

end Tickbox
